import Mathlib

/-!
Formal model of the `deno-debug` library (`src/debug.ts`): the namespace
enable/disable matching engine, the selector pattern compiler, the message
format pre-pass (`applyFormatters`), and the logger-instance registry.

JavaScript runtime values passed to the logger are modelled by the `Value`
type; JavaScript `RegExp` objects built by the compiler are modelled by a
small regex AST (`RElem`) together with a parser (`parseAux`) covering
exactly the regex constructs this library can generate from selector
tokens over plain characters, `.`, `*` and `?`.  Other regex
metacharacters are outside the modelled scope and are treated as literal
characters; all theorems below either restrict to the modelled scope or
evaluate concrete inputs inside it.
-/

namespace DenoDebug

/-- JavaScript values as seen by the logger: strings, Error-like values
(carrying their descriptive message), numbers, `undefined`. -/
inductive Value where
  | vstr (s : String)
  | verr (msg : String)
  | vnum (n : Int)
  | vundef
deriving DecidableEq

/-- Modelled from the spec: `coerce` (from `utils.ts`, which is not part of
the sources): an Error-like value is replaced by its descriptive message;
every other value is left as-is. -/
def coerce : Value → Value
  | .verr m => .vstr m
  | v => v

/-- `args[0] = v` in JavaScript: on an empty array this creates the slot. -/
def setHead : List Value → Value → List Value
  | [], v => [v]
  | _ :: t, v => v :: t

/-- `args[0]` in JavaScript: `undefined` when the array is empty. -/
def headVal : List Value → Value
  | [] => .vundef
  | v :: _ => v

/-- `typeof v === "string"`. -/
def isStrV : Value → Bool
  | .vstr _ => true
  | _ => false

/-- The string payload of a `Value` known to be a string. -/
def strOf : Value → String
  | .vstr s => s
  | _ => ""

/-- The character class `[a-zA-Z]` of the directive regex `/%([a-zA-Z%])/g`. -/
def isAsciiLetter (c : Char) : Bool :=
  (97 ≤ c.toNat && c.toNat ≤ 122) || (65 ≤ c.toNat && c.toNat ≤ 90)

/-- The mutable `formatters` table: a map from a directive letter to a
value-formatting function. -/
def Formatters : Type := List (Char × (Value → String))

/-- `createDebug.formatters[format]` lookup. -/
def lookupFmt (fmts : Formatters) (c : Char) : Option (Value → String) :=
  (List.find? (fun p => p.1 = c) fmts).map (fun p => p.2)

/-- The replace loop of `applyFormatters` (src/debug.ts lines 199-216):
scan the template for `%<letter>` and `%%`, threading the match cursor
`idx` and the (mutable) argument array.  `%%` is returned unchanged and
does not advance the cursor; a directive with a registered formatter
consumes `args[idx+1]`, splices it out and keeps the cursor; a directive
without a formatter stays literal and keeps the incremented cursor. -/
def scanFmt (fmts : Formatters) : List Char → Nat → List Value → (List Char × List Value)
  | [], _, args => ([], args)
  | [c], _, args => ([c], args)
  | c :: c2 :: rest, idx, args =>
    if c = '%' then
      if c2 = '%' then
        let r := scanFmt fmts rest idx args
        ('%' :: '%' :: r.1, r.2)
      else if isAsciiLetter c2 then
        match lookupFmt fmts c2 with
        | some f =>
          let val := args.getD (idx + 1) Value.vundef
          let args2 := args.eraseIdx (idx + 1)
          let r := scanFmt fmts rest idx args2
          ((f val).data ++ r.1, r.2)
        | none =>
          let r := scanFmt fmts rest (idx + 1) args
          ('%' :: c2 :: r.1, r.2)
      else
        let r := scanFmt fmts (c2 :: rest) idx args
        ('%' :: r.1, r.2)
    else
      let r := scanFmt fmts (c2 :: rest) idx args
      (c :: r.1, r.2)

/-- `applyFormatters` (src/debug.ts lines 190-219): coerce `args[0]`,
prepend `%O` when the first argument is not a string, then run the
directive scan over the template and splice consumed arguments out. -/
def applyFormatters (fmts : Formatters) (args : List Value) : List Value :=
  let args1 := setHead args (coerce (headVal args))
  let args2 := if isStrV (headVal args1) then args1 else Value.vstr "%O" :: args1
  let r := scanFmt fmts (strOf (headVal args2)).data 0 args2
  setHead r.2 (Value.vstr (String.mk r.1))

/-- A single-character regex atom: a literal character or `.` (any char). -/
inductive Atom where
  | lit (c : Char)
  | dot
deriving DecidableEq

/-- Whether an atom matches one character. -/
def amatch : Atom → Char → Bool
  | .lit c, x => c == x
  | .dot, _ => true

/-- One element of a compiled regex: a plain atom, a starred atom
(`a*` / lazy `a*?`), or an optional atom (`a?` / lazy `a??`).  The lazy
flag does not change acceptance (`RegExp.test` only asks for existence of
a match) but is tracked because a second `?` after an already-lazy
quantifier is a syntax error. -/
inductive RElem where
  | ch (a : Atom)
  | star (a : Atom) (lazy : Bool)
  | opt (a : Atom) (lazy : Bool)
deriving DecidableEq

/-- Fuel-driven full-string regex acceptance over a list of elements.
`ps.length + s.length + 1` fuel always suffices (see `rmatchFuel_complete`). -/
def rmatchFuel : Nat → List RElem → List Char → Bool
  | 0, _, _ => false
  | _ + 1, [], s => s.isEmpty
  | f + 1, e :: ps, s =>
    match e with
    | .ch a =>
      match s with
      | [] => false
      | x :: xs => amatch a x && rmatchFuel f ps xs
    | .star a _ =>
      rmatchFuel f ps s ||
        match s with
        | [] => false
        | x :: xs => amatch a x && rmatchFuel f (e :: ps) xs
    | .opt a _ =>
      rmatchFuel f ps s ||
        match s with
        | [] => false
        | x :: xs => amatch a x && rmatchFuel f ps xs

/-- `regexp.test(s)` for the anchored regexes this library builds:
full-string acceptance of the element list. -/
def rmatchB (ps : List RElem) (s : List Char) : Bool :=
  rmatchFuel (ps.length + s.length + 1) ps s

/-- Parser for the regex source strings this library constructs
(`"^" + token.replace(/\*/g, ".*?") + "$"`, anchors left implicit since
acceptance is full-string).  Covers plain characters, `.`, `*`, `?`;
`none` models the `SyntaxError` that `new RegExp` throws on a quantifier
with nothing to repeat.  Regex metacharacters other than `.`, `*`, `?`
are outside the modelled scope and are read as literal characters. -/
def parseAux : List Char → List RElem → Option (List RElem)
  | [], acc => some acc.reverse
  | c :: cs, acc =>
    if c = '.' then parseAux cs (.ch .dot :: acc)
    else if c = '*' then
      match acc with
      | .ch a :: acc2 => parseAux cs (.star a false :: acc2)
      | _ => none
    else if c = '?' then
      match acc with
      | .ch a :: acc2 => parseAux cs (.opt a false :: acc2)
      | .star a false :: acc2 => parseAux cs (.star a true :: acc2)
      | .opt a false :: acc2 => parseAux cs (.opt a true :: acc2)
      | _ => none
    else parseAux cs (.ch (.lit c) :: acc)

/-- Parse a full regex body. -/
def parsePattern (cs : List Char) : Option (List RElem) :=
  parseAux cs []

/-- `namespace.replace(/\*/g, ".*?")` (src/debug.ts line 107). -/
def replaceStar : List Char → List Char
  | [] => []
  | c :: cs => if c = '*' then '.' :: '*' :: '?' :: replaceStar cs else c :: replaceStar cs

/-- A character splitting the selector: the regex `[\s,]+` (line 106). -/
def isSep (c : Char) : Bool :=
  c == ',' || c.isWhitespace

/-- Worker for `tokenize`: accumulates the current token (reversed). -/
def tokenizeAux : List Char → List Char → List (List Char)
  | [], cur => if cur.isEmpty then [] else [cur.reverse]
  | c :: cs, cur =>
    if isSep c then
      if cur.isEmpty then tokenizeAux cs [] else cur.reverse :: tokenizeAux cs []
    else tokenizeAux cs (c :: cur)

/-- `namespaces.split(/[\s,]+/)` with the empty tokens (which the source
skips with `if (!ns) return`) already dropped: the maximal runs of
non-separator characters. -/
def tokenize (s : List Char) : List (List Char) :=
  tokenizeAux s []

/-- A compiled rule: the regex source body (the post-`replaceStar` token,
as stored by the `RegExp` object and recovered by `regexpToNamespace`)
and its compiled element list. -/
structure Rule where
  src : List Char
  pat : List RElem
deriving DecidableEq

/-- The compile loop of `enable` (src/debug.ts lines 105-118) over the
already-split-and-star-replaced tokens: a token starting with `-` pushes a
deny rule over its remainder, any other token pushes an allow rule;
`none` models a thrown `SyntaxError` from `new RegExp`. -/
def compileTokens : List (List Char) → Option (List Rule × List Rule)
  | [] => some ([], [])
  | t :: ts =>
    match t with
    | [] => compileTokens ts
    | c :: rest =>
      let body := if c = '-' then rest else c :: rest
      match parsePattern body, compileTokens ts with
      | some pat, some (ns, sk) =>
        if c = '-' then some (ns, ⟨body, pat⟩ :: sk) else some (⟨body, pat⟩ :: ns, sk)
      | _, _ => none

/-- Compile a selector string into the `names` (allow) and `skips` (deny)
rule lists, as `enable` does. -/
def compileSelector (s : String) : Option (List Rule × List Rule) :=
  compileTokens ((tokenize s.data).map replaceStar)

/-- `regexpToNamespace` (src/debug.ts lines 144-149): strip the anchors
(already absent from `Rule.src`) and turn a trailing `.*?` back into `*`.
Interior `.*?` sequences are left as they are. -/
def regexpToNamespace (src : List Char) : List Char :=
  if src.reverse.take 3 = ['?', '*', '.'] then ('*' :: src.reverse.drop 3).reverse
  else src

/-- `[...].join(",")`. -/
def joinComma : List (List Char) → List Char
  | [] => []
  | [t] => t
  | t :: t2 :: ts => t ++ ',' :: joinComma (t2 :: ts)

/-- The selector string `disable` returns (src/debug.ts lines 129-132):
allow rules first, then deny rules prefixed with `-`, comma-joined. -/
def disableString (names skips : List Rule) : String :=
  String.mk (joinComma
    (names.map (fun r => regexpToNamespace r.src) ++
      skips.map (fun r => '-' :: regexpToNamespace r.src)))

/-- `enabled` (src/debug.ts lines 76-93): a namespace whose last character
is `*` is enabled unconditionally; otherwise any matching skip rule
disables it, otherwise any matching name rule enables it, otherwise it is
disabled. -/
def enabledB (names skips : List Rule) (ns : String) : Bool :=
  if ns.data.getLast? = some '*' then true
  else if skips.any (fun r => rmatchB r.pat ns.data) then false
  else names.any (fun r => rmatchB r.pat ns.data)

/-- The dynamic argument of `enable(namespaces: any)`: a string, or any
non-string value (`undefined` models an absent `DEBUG` env variable). -/
inductive EnableArg where
  | str (s : String)
  | undef
  | num (n : Int)
  | bool (b : Bool)
deriving DecidableEq

/-- `typeof namespaces === "string" ? namespaces : ""` (line 105). -/
def EnableArg.toSelector : EnableArg → String
  | .str s => s
  | _ => ""

/-- `typeof namespaces === "string"`. -/
def EnableArg.isString : EnableArg → Bool
  | .str _ => true
  | _ => false

/-- A logger instance (the `DebugInstance` of src/debug.ts): the `id`
models JavaScript object identity (used by `indexOf` in `destroy`);
`prevTime` models the `prevTime` closure variable; `Sink` is the type of
a custom output function stored in `log`. -/
structure DebugInstance (Sink : Type) where
  id : Nat
  nspace : String
  color : Nat
  enabled : Bool
  log : Option Sink
  prevTime : Option Nat
deriving DecidableEq

/-- The module-level mutable state of src/debug.ts: the rule lists and
the instance registry (`nextId` feeds object identities). -/
structure GlobalState (Sink : Type) where
  names : List Rule
  skips : List Rule
  instances : List (DebugInstance Sink)
  nextId : Nat
deriving DecidableEq

/-- Modelled from the spec: `selectColor` (from `utils.ts`, which is not
part of the sources): a color picked deterministically from the namespace
string's character-code sum, modulo a fixed palette size. -/
def selectColor (ns : String) : Nat :=
  (ns.data.foldl (fun a c => a + c.toNat) 0) % 76

/-- `createDebug` (src/debug.ts lines 223-289): build an instance whose
`enabled` flag is evaluated against the current rule lists, and push it
onto the registry. -/
def createDebugG {Sink : Type} (ns : String) (g : GlobalState Sink) :
    DebugInstance Sink × GlobalState Sink :=
  let inst : DebugInstance Sink :=
    ⟨g.nextId, ns, selectColor ns, enabledB g.names g.skips ns, none, none⟩
  (inst, ⟨g.names, g.skips, g.instances ++ [inst], g.nextId + 1⟩)

/-- Assignment to the `log` field of the registered object with the given
identity (JavaScript mutation is visible through the registry). -/
def setLogById {Sink : Type} (l : List (DebugInstance Sink)) (i : Nat) (v : Option Sink) :
    List (DebugInstance Sink) :=
  l.map (fun inst => if inst.id = i then { inst with log := v } else inst)

/-- `extend` (src/debug.ts lines 271-277): create a new instance on the
concatenated namespace, then copy the parent's `log` override onto it. -/
def extendG {Sink : Type} (g : GlobalState Sink) (parent : DebugInstance Sink)
    (sub delim : String) : DebugInstance Sink × GlobalState Sink :=
  let p := createDebugG (parent.nspace ++ delim ++ sub) g
  ({ p.1 with log := parent.log },
    { p.2 with instances := setLogById p.2.instances p.1.id parent.log })

/-- `extend` with the default delimiter `":"` (the `delimiter: string =
":"` default parameter of the source). -/
def extendGDefault {Sink : Type} (g : GlobalState Sink) (parent : DebugInstance Sink)
    (sub : String) : DebugInstance Sink × GlobalState Sink :=
  extendG g parent sub ":"

/-- `destroy` (src/debug.ts lines 257-264): remove the instance from the
registry via `indexOf`/`splice`, reporting whether it was present. -/
def destroyG {Sink : Type} (g : GlobalState Sink) (instId : Nat) :
    Bool × GlobalState Sink :=
  match g.instances.findIdx? (fun inst => inst.id = instId) with
  | some k => (true, { g with instances := g.instances.eraseIdx k })
  | none => (false, g)

/-- The observable effects of one logger invocation: how many clock reads
happened, how many times the format pre-pass ran, how many calls reached
the output sink, and the rendered lines handed to it. -/
structure Effects where
  clockReads : Nat
  formatRuns : Nat
  sinkCalls : Nat
  outputs : List String
deriving DecidableEq

/-- `prettifyLog` (src/debug.ts lines 171-184); `render` stands for the
`format` function imported from `format.ts` (not part of the sources) and
`msFn` for the imported `ms` humanizer. -/
def prettifyLog (nspace : String) (color : Nat) (diff : Nat)
    (msFn : Nat → String) (render : List Value → String) (args : List Value) : String :=
  let colorCode := "\u001B[3" ++ (if color < 8 then toString color else "8;5;" ++ toString color)
  let pfx := "  " ++ colorCode ++ ";1m" ++ nspace ++ " \u001B[0m"
  pfx ++ render args ++ " " ++ colorCode ++ "m+" ++ msFn diff ++ "\u001B[0m"

/-- The body of a debug instance call (src/debug.ts lines 232-255): a
disabled instance returns immediately; an enabled one reads the clock,
computes the elapsed time, runs the format pre-pass, renders the line and
hands it to the sink (the instance override if set, else the default). -/
def invoke {Sink : Type} (fmts : Formatters) (render : List Value → String)
    (msFn : Nat → String) (now : Nat) (inst : DebugInstance Sink) (args : List Value) :
    DebugInstance Sink × Effects :=
  if inst.enabled then
    let currTime := now
    let prev :=
      match inst.prevTime with
      | some p => if p = 0 then currTime else p
      | none => currTime
    let diff := currTime - prev
    let fargs := applyFormatters fmts args
    let line := prettifyLog inst.nspace inst.color diff msFn render fargs
    ({ inst with prevTime := some currTime }, ⟨1, 1, 1, [line]⟩)
  else (inst, ⟨0, 0, 0, []⟩)

/-- Install freshly compiled rule lists and recompute every registered
instance's `enabled` flag (src/debug.ts lines 98-122). -/
def enableCore {Sink : Type} (rules : List Rule × List Rule) (g : GlobalState Sink) :
    GlobalState Sink :=
  { g with
    names := rules.1
    skips := rules.2
    instances := g.instances.map
      (fun inst => { inst with enabled := enabledB rules.1 rules.2 inst.nspace }) }

/-- `enable` (src/debug.ts lines 95-123): compile the selector (a
non-string argument compiles like `""`) and recompute all instances;
`none` models a thrown `SyntaxError` from `new RegExp`. -/
def enableG {Sink : Type} (arg : EnableArg) (g : GlobalState Sink) :
    Option (GlobalState Sink) :=
  (compileSelector arg.toSelector).map (fun rs => enableCore rs g)

/-- `disable` (src/debug.ts lines 128-135): render the current rule lists
back into a selector string, then behave exactly like `enable("")`. -/
def disableG {Sink : Type} (g : GlobalState Sink) : String × GlobalState Sink :=
  (disableString g.names g.skips, enableCore ([], []) g)

/-- Glob-with-full-wildcard semantics of a selector token, as the spec
states it: every character of the token matches itself literally except
`*`, which matches any sequence of characters, anchored to the whole
namespace string. -/
inductive GlobMatches : List Char → List Char → Prop where
  | nil : GlobMatches [] []
  | lit {c : Char} {ps xs : List Char} :
      c ≠ '*' → GlobMatches ps xs → GlobMatches (c :: ps) (c :: xs)
  | starEmpty {ps s : List Char} : GlobMatches ps s → GlobMatches ('*' :: ps) s
  | starCons {ps xs : List Char} {x : Char} :
      GlobMatches ('*' :: ps) xs → GlobMatches ('*' :: ps) (x :: xs)

/-- Relational acceptance for compiled regex element lists (the
specification that `rmatchB` decides). -/
inductive PatMatches : List RElem → List Char → Prop where
  | nil : PatMatches [] []
  | ch {a : Atom} {x : Char} {ps : List RElem} {xs : List Char} :
      amatch a x = true → PatMatches ps xs → PatMatches (.ch a :: ps) (x :: xs)
  | starSkip {a : Atom} {l : Bool} {ps : List RElem} {s : List Char} :
      PatMatches ps s → PatMatches (.star a l :: ps) s
  | starCons {a : Atom} {l : Bool} {ps : List RElem} {x : Char} {xs : List Char} :
      amatch a x = true → PatMatches (.star a l :: ps) xs →
      PatMatches (.star a l :: ps) (x :: xs)
  | optSkip {a : Atom} {l : Bool} {ps : List RElem} {s : List Char} :
      PatMatches ps s → PatMatches (.opt a l :: ps) s
  | optCons {a : Atom} {l : Bool} {ps : List RElem} {x : Char} {xs : List Char} :
      amatch a x = true → PatMatches ps xs → PatMatches (.opt a l :: ps) (x :: xs)

/-- The compiled elements a token yields under the modelled pipeline:
`*` becomes a lazy `.*?`, every other character a literal. -/
def tokenElems (t : List Char) : List RElem :=
  t.map (fun c => if c = '*' then .star .dot true else .ch (.lit c))

/-- A plain token character: not a separator and not a JavaScript regex
metacharacter.  Tokens over these characters (plus `*`) are exactly the
ones the compiler treats per the spec's glob reading. -/
def plainChar (c : Char) : Bool :=
  !isSep c && !(c = '*' : Bool) && !(c = '.' : Bool) && !(c = '?' : Bool) &&
    !(c = '+' : Bool) && !(c = '(' : Bool) && !(c = ')' : Bool) &&
    !(c = '[' : Bool) && !(c = ']' : Bool) && !(c = '\x7b' : Bool) &&
    !(c = '\x7d' : Bool) && !(c = '^' : Bool) && !(c = '$' : Bool) &&
    !(c = '\\' : Bool) && !(c = '|' : Bool) && !(c = '/' : Bool)

/-- A token whose characters are plain or `*`. -/
def tokOk (t : List Char) : Bool :=
  t.all (fun c => plainChar c || c = '*')

/-- The body a raw selector token is compiled over: the token without its
leading `-`, if any. -/
def rawBody (r : List Char) : List Char :=
  if r.head? = some '-' then r.tail else r

/-- Whether a raw selector token is a deny token. -/
def rawIsDeny (r : List Char) : Bool :=
  r.head? = some '-'

/-- The rule a raw selector token compiles to (within the modelled scope). -/
def rawRule (r : List Char) : Rule :=
  ⟨replaceStar (rawBody r), tokenElems (rawBody r)⟩

/-- A raw selector token whose body contains `*` only as its final
character, if at all.  These are exactly the tokens whose compiled regex
source survives the `disable` round trip: `regexpToNamespace` converts
only a trailing `.*?` back into `*`. -/
def starFinalRaw (r : List Char) : Bool :=
  !(('*' ∈ (rawBody r).dropLast : Bool))

/-- A character list free of `%`. -/
def noPct (l : List Char) : Bool :=
  l.all (fun c => !(c = '%' : Bool))

theorem tokenElems_nil : tokenElems [] = [] := rfl

theorem tokenElems_cons_star (t : List Char) :
    tokenElems ('*' :: t) = .star .dot true :: tokenElems t := rfl

theorem tokenElems_cons (c : Char) (t : List Char) (hc : c ≠ '*') :
    tokenElems (c :: t) = .ch (.lit c) :: tokenElems t := by
  simp [tokenElems, hc]

theorem rmatchFuel_sound : ∀ (f : Nat) (ps : List RElem) (s : List Char),
    rmatchFuel f ps s = true → PatMatches ps s := by
  intro f
  induction f with
  | zero => intro ps s h; simp [rmatchFuel] at h
  | succ f ih =>
    intro ps s h
    match ps with
    | [] =>
      simp only [rmatchFuel, List.isEmpty_iff] at h
      subst h
      exact .nil
    | e :: ps =>
      cases e with
      | ch a =>
        cases s with
        | nil => simp [rmatchFuel] at h
        | cons x xs =>
          simp only [rmatchFuel] at h
          simp only [Bool.and_eq_true] at h
          exact .ch h.1 (ih _ _ h.2)
      | star a l =>
        simp only [rmatchFuel] at h
        cases s with
        | nil =>
          simp only [Bool.or_eq_true] at h
          rcases h with h | h
          · exact .starSkip (ih _ _ h)
          · simp at h
        | cons x xs =>
          simp only [Bool.or_eq_true, Bool.and_eq_true] at h
          rcases h with h | ⟨ha, h⟩
          · exact .starSkip (ih _ _ h)
          · exact .starCons ha (ih _ _ h)
      | opt a l =>
        simp only [rmatchFuel] at h
        cases s with
        | nil =>
          simp only [Bool.or_eq_true] at h
          rcases h with h | h
          · exact .optSkip (ih _ _ h)
          · simp at h
        | cons x xs =>
          simp only [Bool.or_eq_true, Bool.and_eq_true] at h
          rcases h with h | ⟨ha, h⟩
          · exact .optSkip (ih _ _ h)
          · exact .optCons ha (ih _ _ h)

theorem rmatchFuel_complete {ps : List RElem} {s : List Char} (h : PatMatches ps s) :
    ∀ f, ps.length + s.length + 1 ≤ f → rmatchFuel f ps s = true := by
  induction h with
  | nil =>
    intro f hf
    cases f with
    | zero => omega
    | succ f => simp [rmatchFuel]
  | ch ha _ ih =>
    intro f hf
    cases f with
    | zero => omega
    | succ f =>
      simp only [List.length_cons] at hf
      simp only [rmatchFuel]
      simp only [Bool.and_eq_true]
      exact ⟨ha, ih f (by omega)⟩
  | starSkip _ ih =>
    intro f hf
    cases f with
    | zero => omega
    | succ f =>
      simp only [List.length_cons] at hf
      simp only [rmatchFuel]
      simp only [Bool.or_eq_true]
      exact Or.inl (ih f (by omega))
  | starCons ha _ ih =>
    intro f hf
    cases f with
    | zero => omega
    | succ f =>
      simp only [List.length_cons] at hf
      simp only [rmatchFuel]
      simp only [Bool.or_eq_true, Bool.and_eq_true]
      exact Or.inr ⟨ha, ih f (by simp only [List.length_cons]; omega)⟩
  | optSkip _ ih =>
    intro f hf
    cases f with
    | zero => omega
    | succ f =>
      simp only [List.length_cons] at hf
      simp only [rmatchFuel]
      simp only [Bool.or_eq_true]
      exact Or.inl (ih f (by omega))
  | optCons ha _ ih =>
    intro f hf
    cases f with
    | zero => omega
    | succ f =>
      simp only [List.length_cons] at hf
      simp only [rmatchFuel]
      simp only [Bool.or_eq_true, Bool.and_eq_true]
      exact Or.inr ⟨ha, ih f (by omega)⟩

theorem rmatchB_iff (ps : List RElem) (s : List Char) :
    rmatchB ps s = true ↔ PatMatches ps s :=
  ⟨rmatchFuel_sound _ _ _, fun h => rmatchFuel_complete h _ (le_refl _)⟩

theorem tokenElems_glob : ∀ (t s : List Char),
    PatMatches (tokenElems t) s ↔ GlobMatches t s := by
  intro t
  induction t with
  | nil =>
    intro s
    rw [tokenElems_nil]
    constructor
    · intro h; cases h; exact .nil
    · intro h; cases h; exact .nil
  | cons c t ih =>
    by_cases hc : c = '*'
    · subst hc
      intro s
      rw [tokenElems_cons_star]
      induction s with
      | nil =>
        constructor
        · intro h
          cases h with
          | starSkip hm => exact .starEmpty ((ih []).mp hm)
        · intro h
          cases h with
          | starEmpty hm => exact .starSkip ((ih []).mpr hm)
      | cons x xs ihs =>
        constructor
        · intro h
          cases h with
          | starSkip hm => exact .starEmpty ((ih (x :: xs)).mp hm)
          | starCons ha hm => exact .starCons (ihs.mp hm)
        · intro h
          cases h with
          | lit hne hm => exact absurd rfl hne
          | starEmpty hm => exact .starSkip ((ih (x :: xs)).mpr hm)
          | starCons hm => exact .starCons (by simp [amatch]) (ihs.mpr hm)
    · intro s
      rw [tokenElems_cons c t hc]
      constructor
      · intro h
        cases h with
        | ch ha hm =>
          simp only [amatch, beq_iff_eq] at ha
          subst ha
          exact .lit hc ((ih _).mp hm)
      · intro h
        cases h with
        | lit hne hm => exact .ch (by simp [amatch]) ((ih _).mpr hm)
        | starEmpty hm => exact absurd rfl hc
        | starCons hm => exact absurd rfl hc

theorem globMatches_of_no_star : ∀ {t s : List Char},
    GlobMatches t s → '*' ∉ t → t = s := by
  intro t s h
  induction h with
  | nil => intro _; rfl
  | lit hne _ ih =>
    intro hmem
    rw [ih (fun hin => hmem (List.mem_cons_of_mem _ hin))]
  | starEmpty _ =>
    intro hmem
    exact absurd (List.mem_cons_self _ _) hmem
  | starCons _ _ =>
    intro hmem
    exact absurd (List.mem_cons_self _ _) hmem

theorem plainChar_spec (c : Char) (h : plainChar c = true) :
    isSep c = false ∧ c ≠ '*' ∧ c ≠ '.' ∧ c ≠ '?' := by
  simp only [plainChar, Bool.and_eq_true, Bool.not_eq_true', decide_eq_false_iff_not] at h
  exact ⟨h.1.1.1.1.1.1.1.1.1.1.1.1.1.1.1, h.1.1.1.1.1.1.1.1.1.1.1.1.1.1.2,
    h.1.1.1.1.1.1.1.1.1.1.1.1.1.2, h.1.1.1.1.1.1.1.1.1.1.1.1.2⟩

theorem parseAux_replaceStar : ∀ (t : List Char) (acc : List RElem), tokOk t = true →
    parseAux (replaceStar t) acc = some (acc.reverse ++ tokenElems t) := by
  intro t
  induction t with
  | nil => intro acc _; simp [replaceStar, parseAux, tokenElems]
  | cons c t ih =>
    intro acc hok
    rw [tokOk, List.all_cons] at hok
    simp only [Bool.and_eq_true, Bool.or_eq_true, decide_eq_true_eq] at hok
    obtain ⟨hc, ht⟩ := hok
    by_cases hstar : c = '*'
    · subst hstar
      have h1 : replaceStar ('*' :: t) = '.' :: '*' :: '?' :: replaceStar t := by
        rw [replaceStar, if_pos rfl]
      have h2 : parseAux ('.' :: '*' :: '?' :: replaceStar t) acc
          = parseAux (replaceStar t) (.star .dot true :: acc) := by
        simp [parseAux]
      rw [h1, h2, ih _ ht, tokenElems_cons_star]
      simp
    · obtain ⟨hcp, _⟩ : plainChar c = true ∧ True := by
        rcases hc with hc | hc
        · exact ⟨hc, trivial⟩
        · exact absurd hc hstar
      obtain ⟨_, _, hdot, hq⟩ := plainChar_spec c hcp
      have h1 : replaceStar (c :: t) = c :: replaceStar t := by
        rw [replaceStar, if_neg hstar]
      have h2 : parseAux (c :: replaceStar t) acc
          = parseAux (replaceStar t) (.ch (.lit c) :: acc) := by
        simp [parseAux, hdot, hstar, hq]
      rw [h1, h2, ih _ ht, tokenElems_cons c t hstar]
      simp

theorem replaceStar_append : ∀ (a b : List Char),
    replaceStar (a ++ b) = replaceStar a ++ replaceStar b := by
  intro a b
  induction a with
  | nil => simp [replaceStar]
  | cons c a ih =>
    by_cases hc : c = '*'
    · subst hc
      simp [replaceStar, ih]
    · simp [replaceStar, hc, ih]

theorem replaceStar_of_no_star : ∀ (a : List Char), '*' ∉ a → replaceStar a = a := by
  intro a
  induction a with
  | nil => intro _; rfl
  | cons c a ih =>
    intro h
    have hc : c ≠ '*' := fun hh => h (hh ▸ List.mem_cons_self _ _)
    rw [replaceStar, if_neg hc, ih (fun hin => h (List.mem_cons_of_mem _ hin))]

theorem dropLast_concat_star {t : List Char} (hne : t ≠ [])
    (hlast : t.getLast? = some '*') : t.dropLast ++ ['*'] = t := by
  have h1 := List.dropLast_append_getLast hne
  have h2 := List.getLast?_eq_getLast t hne
  rw [hlast] at h2
  have h3 : t.getLast hne = '*' := (Option.some_inj.mp h2).symm
  rw [← h3]
  exact h1

theorem rawBody_of_deny {r : List Char} (h : rawIsDeny r = true) :
    r = '-' :: rawBody r := by
  rw [rawIsDeny, decide_eq_true_eq] at h
  cases r with
  | nil => simp at h
  | cons c t =>
    simp only [List.head?_cons, Option.some_inj] at h
    subst h
    simp [rawBody]

theorem rawBody_of_allow {r : List Char} (h : rawIsDeny r = false) :
    rawBody r = r := by
  rw [rawIsDeny, decide_eq_false_iff_not] at h
  rw [rawBody, if_neg h]

theorem tokenizeAux_nonsep : ∀ (t cs cur : List Char),
    t.all (fun c => !isSep c) = true →
    tokenizeAux (t ++ cs) cur = tokenizeAux cs (t.reverse ++ cur) := by
  intro t
  induction t with
  | nil => intro cs cur _; simp
  | cons c t ih =>
    intro cs cur hall
    rw [List.all_cons, Bool.and_eq_true] at hall
    obtain ⟨hc, ht⟩ := hall
    rw [Bool.not_eq_true'] at hc
    rw [List.cons_append, tokenizeAux, if_neg (by rw [hc]; exact Bool.false_ne_true)]
    rw [ih cs (c :: cur) ht]
    simp

theorem tokenizeAux_comma : ∀ (cs cur : List Char), cur ≠ [] →
    tokenizeAux (',' :: cs) cur = cur.reverse :: tokenizeAux cs [] := by
  intro cs cur h
  rw [tokenizeAux, if_pos (by decide)]
  rw [if_neg]
  rw [List.isEmpty_eq_true]
  exact h

theorem tokenize_joinComma : ∀ (raws : List (List Char)),
    (∀ r ∈ raws, r ≠ [] ∧ r.all (fun c => !isSep c) = true) →
    tokenize (joinComma raws) = raws := by
  intro raws
  induction raws with
  | nil => intro _; rfl
  | cons t ts ih =>
    intro h
    have ht := h t (List.mem_cons_self _ _)
    have hts := fun r hr => h r (List.mem_cons_of_mem _ hr)
    cases ts with
    | nil =>
      have h1 : tokenizeAux t [] = tokenizeAux [] (t.reverse ++ []) := by
        have h2 := tokenizeAux_nonsep t [] [] ht.2
        rwa [List.append_nil] at h2
      rw [tokenize, joinComma, h1, tokenizeAux]
      rw [if_neg]
      · simp
      · rw [List.isEmpty_eq_true, List.append_nil, List.reverse_eq_nil_iff]
        exact ht.1
    | cons t2 ts2 =>
      rw [tokenize, joinComma]
      rw [tokenizeAux_nonsep t (',' :: joinComma (t2 :: ts2)) [] ht.2]
      rw [List.append_nil]
      rw [tokenizeAux_comma _ _ (by rw [Ne, List.reverse_eq_nil_iff]; exact ht.1)]
      rw [List.reverse_reverse]
      exact congrArg (t :: ·) (ih hts)

theorem compileTokens_cons_deny (body : List Char) (ts : List (List Char)) :
    compileTokens (('-' :: body) :: ts) =
      match parsePattern body, compileTokens ts with
      | some pat, some (ns, sk) => some (ns, ⟨body, pat⟩ :: sk)
      | _, _ => none := by
  simp [compileTokens]

theorem compileTokens_cons_allow (c : Char) (rest : List Char) (ts : List (List Char))
    (hc : c ≠ '-') :
    compileTokens ((c :: rest) :: ts) =
      match parsePattern (c :: rest), compileTokens ts with
      | some pat, some (ns, sk) => some (⟨c :: rest, pat⟩ :: ns, sk)
      | _, _ => none := by
  simp [compileTokens, hc]

theorem parsePattern_replaceStar {t : List Char} (h : tokOk t = true) :
    parsePattern (replaceStar t) = some (tokenElems t) := by
  rw [parsePattern, parseAux_replaceStar t [] h]
  simp

theorem starFinalRaw_spec {r : List Char} (h : starFinalRaw r = true) :
    '*' ∉ (rawBody r).dropLast := by
  rw [starFinalRaw, Bool.not_eq_true', decide_eq_false_iff_not] at h
  exact h

theorem regexpToNamespace_replaceStar_starFinal : ∀ (t : List Char),
    '*' ∉ t.dropLast → regexpToNamespace (replaceStar t) = t := by
  intro t h
  by_cases hstar : '*' ∈ t
  · have hne : t ≠ [] := by
      rintro rfl
      simp at hstar
    have hlast : t.getLast? = some '*' := by
      have hsplit := List.dropLast_append_getLast hne
      have hmem : '*' ∈ t.dropLast ++ [t.getLast hne] := by
        rw [hsplit]
        exact hstar
      rcases List.mem_append.mp hmem with hm | hm
      · exact absurd hm h
      · rw [List.mem_singleton] at hm
        rw [List.getLast?_eq_getLast t hne, ← hm]
    have hdec := dropLast_concat_star hne hlast
    have hrs : replaceStar t = t.dropLast ++ ['.', '*', '?'] := by
      conv_lhs => rw [← hdec]
      rw [replaceStar_append, replaceStar_of_no_star _ h]
      rfl
    rw [hrs, regexpToNamespace]
    rw [if_pos (by simp [List.reverse_append])]
    simp [List.reverse_append, hdec]
  · rw [replaceStar_of_no_star _ hstar, regexpToNamespace, if_neg]
    intro htake
    have hmem : '*' ∈ t.reverse.take 3 := by
      rw [htake]
      simp
    exact hstar (List.mem_reverse.mp (List.take_subset 3 t.reverse hmem))

theorem tokenizeAux_tokens_ok : ∀ (l cur : List Char),
    cur.all (fun c => !isSep c) = true →
    ∀ r ∈ tokenizeAux l cur, r ≠ [] ∧ r.all (fun c => !isSep c) = true := by
  intro l
  induction l with
  | nil =>
    intro cur hcur r hr
    rw [tokenizeAux] at hr
    by_cases hc : cur.isEmpty = true
    · rw [if_pos hc] at hr
      simp at hr
    · rw [if_neg hc] at hr
      rw [List.mem_singleton] at hr
      subst hr
      rw [Bool.not_eq_true, List.isEmpty_eq_false] at hc
      refine ⟨?_, ?_⟩
      · rw [Ne, List.reverse_eq_nil_iff]
        exact hc
      · rw [List.all_reverse]
        exact hcur
  | cons c l ih =>
    intro cur hcur r hr
    rw [tokenizeAux] at hr
    by_cases hs : isSep c = true
    · rw [if_pos hs] at hr
      by_cases hc : cur.isEmpty = true
      · rw [if_pos hc] at hr
        exact ih [] rfl r hr
      · rw [if_neg hc] at hr
        rcases List.mem_cons.mp hr with hr | hr
        · subst hr
          rw [Bool.not_eq_true, List.isEmpty_eq_false] at hc
          refine ⟨?_, ?_⟩
          · rw [Ne, List.reverse_eq_nil_iff]
            exact hc
          · rw [List.all_reverse]
            exact hcur
        · exact ih [] rfl r hr
    · rw [if_neg hs] at hr
      refine ih (c :: cur) ?_ r hr
      rw [List.all_cons, Bool.and_eq_true]
      refine ⟨?_, hcur⟩
      rw [Bool.not_eq_true] at hs
      rw [hs]
      rfl

theorem tokenize_tokens_ok (l : List Char) :
    ∀ r ∈ tokenize l, r ≠ [] ∧ r.all (fun c => !isSep c) = true :=
  tokenizeAux_tokens_ok l [] rfl

theorem compileTokens_cons_empty (ts : List (List Char)) :
    compileTokens ([] :: ts) = compileTokens ts := by
  rw [compileTokens]

theorem replaceStar_cons_head (c : Char) (rest : List Char) (hc : c ≠ '-') :
    ∃ d tl, replaceStar (c :: rest) = d :: tl ∧ d ≠ '-' := by
  by_cases hstar : c = '*'
  · subst hstar
    rw [replaceStar, if_pos rfl]
    exact ⟨'.', _, rfl, by decide⟩
  · rw [replaceStar, if_neg hstar]
    exact ⟨c, _, rfl, hc⟩

theorem compileTokens_append : ∀ (xs ys : List (List Char)),
    compileTokens (xs ++ ys) =
      match compileTokens xs, compileTokens ys with
      | some (n1, s1), some (n2, s2) => some (n1 ++ n2, s1 ++ s2)
      | _, _ => none := by
  intro xs ys
  induction xs with
  | nil =>
    rw [List.nil_append]
    cases hys : compileTokens ys with
    | none => rfl
    | some p =>
      obtain ⟨n2, s2⟩ := p
      show some (n2, s2) = some ([] ++ n2, [] ++ s2)
      rw [List.nil_append, List.nil_append]
  | cons t xs ih =>
    rw [List.cons_append]
    cases t with
    | nil =>
      rw [compileTokens_cons_empty, compileTokens_cons_empty, ih]
    | cons c rest =>
      by_cases hc : c = '-'
      · subst hc
        rw [compileTokens_cons_deny rest (xs ++ ys), compileTokens_cons_deny rest xs, ih]
        cases parsePattern rest with
        | none =>
          cases compileTokens xs with
          | none => rfl
          | some p =>
            obtain ⟨n1, s1⟩ := p
            cases compileTokens ys with
            | none => rfl
            | some q =>
              obtain ⟨n2, s2⟩ := q
              rfl
        | some pat =>
          cases compileTokens xs with
          | none => rfl
          | some p =>
            obtain ⟨n1, s1⟩ := p
            cases compileTokens ys with
            | none => rfl
            | some q =>
              obtain ⟨n2, s2⟩ := q
              show some (n1 ++ n2, ⟨rest, pat⟩ :: (s1 ++ s2)) =
                some (n1 ++ n2, (⟨rest, pat⟩ :: s1) ++ s2)
              rw [List.cons_append]
      · rw [compileTokens_cons_allow c rest (xs ++ ys) hc,
          compileTokens_cons_allow c rest xs hc, ih]
        cases parsePattern (c :: rest) with
        | none =>
          cases compileTokens xs with
          | none => rfl
          | some p =>
            obtain ⟨n1, s1⟩ := p
            cases compileTokens ys with
            | none => rfl
            | some q =>
              obtain ⟨n2, s2⟩ := q
              rfl
        | some pat =>
          cases compileTokens xs with
          | none => rfl
          | some p =>
            obtain ⟨n1, s1⟩ := p
            cases compileTokens ys with
            | none => rfl
            | some q =>
              obtain ⟨n2, s2⟩ := q
              show some (⟨c :: rest, pat⟩ :: (n1 ++ n2), s1 ++ s2) =
                some ((⟨c :: rest, pat⟩ :: n1) ++ n2, s1 ++ s2)
              rw [List.cons_append]

theorem compileTokens_filter_split : ∀ (ts : List (List Char)) (ns sk : List Rule),
    (∀ r ∈ ts, r ≠ [] ∧ starFinalRaw r = true) →
    compileTokens (ts.map replaceStar) = some (ns, sk) →
    compileTokens ((ts.filter (fun r => !rawIsDeny r)).map replaceStar) = some (ns, []) ∧
    compileTokens ((ts.filter rawIsDeny).map replaceStar) = some ([], sk) ∧
    ns.map (fun r => regexpToNamespace r.src) = ts.filter (fun r => !rawIsDeny r) ∧
    sk.map (fun r => '-' :: regexpToNamespace r.src) = ts.filter rawIsDeny := by
  intro ts
  induction ts with
  | nil =>
    intro ns sk _ hcomp
    have h2 : (some (([] : List Rule), ([] : List Rule)) : Option (List Rule × List Rule)) =
        some (ns, sk) := hcomp
    obtain ⟨h3, h4⟩ := Prod.ext_iff.mp (Option.some_inj.mp h2)
    obtain rfl : ns = [] := h3.symm
    obtain rfl : sk = [] := h4.symm
    exact ⟨rfl, rfl, rfl, rfl⟩
  | cons r ts ih =>
    intro ns sk hprops hcomp
    have hr := hprops r (List.mem_cons_self _ _)
    have hts := fun x hx => hprops x (List.mem_cons_of_mem _ hx)
    obtain ⟨c, rest, rfl⟩ : ∃ c rest, r = c :: rest := by
      cases r with
      | nil => exact absurd rfl hr.1
      | cons c rest => exact ⟨c, rest, rfl⟩
    by_cases hdash : c = '-'
    · subst hdash
      have hdeny : rawIsDeny ('-' :: rest) = true := by simp [rawIsDeny]
      have hbody : rawBody ('-' :: rest) = rest := by simp [rawBody]
      have hsf : '*' ∉ rest.dropLast := by
        have h2 := starFinalRaw_spec hr.2
        rwa [hbody] at h2
      have hrs : replaceStar ('-' :: rest) = '-' :: replaceStar rest := by
        rw [replaceStar, if_neg (by decide)]
      rw [List.map_cons, hrs, compileTokens_cons_deny] at hcomp
      cases hp : parsePattern (replaceStar rest) with
      | none =>
        rw [hp] at hcomp
        cases hc2 : compileTokens (ts.map replaceStar) with
        | none => rw [hc2] at hcomp; exact absurd hcomp (by simp)
        | some p => rw [hc2] at hcomp; obtain ⟨n1, s1⟩ := p; exact absurd hcomp (by simp)
      | some pat =>
        rw [hp] at hcomp
        cases hc2 : compileTokens (ts.map replaceStar) with
        | none => rw [hc2] at hcomp; exact absurd hcomp (by simp)
        | some p =>
          obtain ⟨n1, s1⟩ := p
          rw [hc2] at hcomp
          have h2 := Option.some_inj.mp hcomp
          rw [Prod.mk.injEq] at h2
          obtain ⟨hns, hsk⟩ := h2
          obtain ⟨iha, ihd, ihra, ihrd⟩ := ih n1 s1 hts hc2
          refine ⟨?_, ?_, ?_, ?_⟩
          · rw [List.filter_cons_of_neg (by rw [hdeny]; decide), ← hns]
            exact iha
          · rw [List.filter_cons_of_pos hdeny, List.map_cons, hrs,
              compileTokens_cons_deny, hp, ihd, ← hsk]
          · rw [List.filter_cons_of_neg (by rw [hdeny]; decide), ← hns]
            exact ihra
          · rw [← hsk, List.filter_cons_of_pos hdeny, List.map_cons]
            show ('-' :: regexpToNamespace (replaceStar rest)) ::
                s1.map (fun r => '-' :: regexpToNamespace r.src) =
              ('-' :: rest) :: ts.filter rawIsDeny
            rw [regexpToNamespace_replaceStar_starFinal rest hsf, ihrd]
    · have hdeny : rawIsDeny (c :: rest) = false := by
        rw [rawIsDeny, decide_eq_false_iff_not]
        simp only [List.head?_cons, Option.some_inj]
        exact hdash
      have hbody : rawBody (c :: rest) = c :: rest := rawBody_of_allow hdeny
      have hsf : '*' ∉ (c :: rest).dropLast := by
        have h2 := starFinalRaw_spec hr.2
        rwa [hbody] at h2
      obtain ⟨d, tl, hdt, hdne⟩ := replaceStar_cons_head c rest hdash
      rw [List.map_cons, hdt, compileTokens_cons_allow d tl _ hdne, ← hdt] at hcomp
      cases hp : parsePattern (replaceStar (c :: rest)) with
      | none =>
        rw [hp] at hcomp
        cases hc2 : compileTokens (ts.map replaceStar) with
        | none => rw [hc2] at hcomp; exact absurd hcomp (by simp)
        | some p => rw [hc2] at hcomp; obtain ⟨n1, s1⟩ := p; exact absurd hcomp (by simp)
      | some pat =>
        rw [hp] at hcomp
        cases hc2 : compileTokens (ts.map replaceStar) with
        | none => rw [hc2] at hcomp; exact absurd hcomp (by simp)
        | some p =>
          obtain ⟨n1, s1⟩ := p
          rw [hc2] at hcomp
          have h2 := Option.some_inj.mp hcomp
          rw [Prod.mk.injEq] at h2
          obtain ⟨hns, hsk⟩ := h2
          obtain ⟨iha, ihd, ihra, ihrd⟩ := ih n1 s1 hts hc2
          refine ⟨?_, ?_, ?_, ?_⟩
          · rw [List.filter_cons_of_pos (by rw [hdeny]; rfl), List.map_cons, hdt,
              compileTokens_cons_allow d tl _ hdne, ← hdt, hp, iha, ← hns]
          · rw [List.filter_cons_of_neg (by rw [hdeny]; exact Bool.false_ne_true),
              ← hsk]
            exact ihd
          · rw [← hns, List.filter_cons_of_pos (by rw [hdeny]; rfl), List.map_cons]
            show regexpToNamespace (replaceStar (c :: rest)) ::
                n1.map (fun r => regexpToNamespace r.src) =
              (c :: rest) :: ts.filter (fun r => !rawIsDeny r)
            rw [regexpToNamespace_replaceStar_starFinal (c :: rest) hsf, ihra]
          · rw [List.filter_cons_of_neg (by rw [hdeny]; exact Bool.false_ne_true),
              ← hsk]
            exact ihrd


/-- Claim C1: for every namespace string whose last character is `*`, the
enablement check returns true regardless of the contents of the allow
(`names`) and deny (`skips`) rule lists, before any rule is consulted. -/
theorem c1_wildcard_namespace_always_enabled (names skips : List Rule) (ns : String)
    (h : ns.data.getLast? = some '*') :
    enabledB names skips ns = true := by
  rw [enabledB, if_pos h]

/-- Witness for C1 at the namespace `"ap*"` with a deny rule that matches
it: the trailing-wildcard fast path wins over the deny rule. -/
theorem c1_witness :
    enabledB [] [rawRule ('a' :: 'p' :: '*' :: [])] "ap*" = true :=
  c1_wildcard_namespace_always_enabled [] [rawRule ('a' :: 'p' :: '*' :: [])] "ap*"
    (by decide)

/-- Claim C2: for namespaces not ending in `*`, a matching deny rule
forces false even when an allow rule matches; with no matching deny rule
the result is true exactly when an allow rule matches (so with no
matching rule at all it is false). -/
theorem c2_deny_precedence (names skips : List Rule) (ns : String)
    (h : ns.data.getLast? ≠ some '*') :
    ((∃ r ∈ skips, rmatchB r.pat ns.data = true) → enabledB names skips ns = false) ∧
    ((∀ r ∈ skips, rmatchB r.pat ns.data = false) →
      (enabledB names skips ns = true ↔ ∃ r ∈ names, rmatchB r.pat ns.data = true)) ∧
    ((∀ r ∈ skips, rmatchB r.pat ns.data = false) ∧
        (∀ r ∈ names, rmatchB r.pat ns.data = false) →
      enabledB names skips ns = false) := by
  refine ⟨?_, ?_, ?_⟩
  · rintro ⟨r, hr, hm⟩
    rw [enabledB, if_neg h, if_pos]
    exact List.any_eq_true.mpr ⟨r, hr, hm⟩
  · intro hnone
    rw [enabledB, if_neg h, if_neg]
    · exact List.any_eq_true
    · intro hany
      obtain ⟨r, hr, hm⟩ := List.any_eq_true.mp hany
      rw [hnone r hr] at hm
      exact Bool.false_ne_true hm
  · rintro ⟨hsk, hnm⟩
    rw [enabledB, if_neg h, if_neg]
    · rw [Bool.eq_false_iff]
      intro hany
      obtain ⟨r, hr, hm⟩ := List.any_eq_true.mp hany
      rw [hnm r hr] at hm
      exact Bool.false_ne_true hm
    · intro hany
      obtain ⟨r, hr, hm⟩ := List.any_eq_true.mp hany
      rw [hsk r hr] at hm
      exact Bool.false_ne_true hm

/-- Witness for C2 on the spec's own example: with selector
`"api:*,-api:internal"`, the namespace `"api:internal"` is disabled (deny
wins over the matching allow rule) and `"api:public"` is enabled. -/
theorem c2_witness :
    enabledB ((compileSelector "api:*,-api:internal").getD ([], [])).1
        ((compileSelector "api:*,-api:internal").getD ([], [])).2 "api:internal" = false ∧
    enabledB ((compileSelector "api:*,-api:internal").getD ([], [])).1
        ((compileSelector "api:*,-api:internal").getD ([], [])).2 "api:public" = true := by
  constructor
  · exact (c2_deny_precedence _ _ _ (by decide)).1 (by decide)
  · exact ((c2_deny_precedence _ _ _ (by decide)).2.1 (by decide)).mpr (by decide)

/-- Counterexample to C3 as stated: the compiler does not escape regex
metacharacters, so the token `"a.b"` compiles to a matcher that accepts
`"axb"`, although under the claimed literal-except-`*` glob semantics
`"a.b"` (which contains no `*`) would match only the string `"a.b"`
itself. -/
theorem c3_counterexample :
    ((compileSelector "a.b").getD ([], [])).1.map (fun r => rmatchB r.pat "axb".data)
        = [true] ∧
      ¬ GlobMatches "a.b".data "axb".data := by
  constructor
  · decide
  · intro hg
    have heq := globMatches_of_no_star hg (by decide)
    exact absurd heq (by decide)

/-- Claim C3 (amended): for every nonempty selector token over characters
that are not regex metacharacters (plus `*`), compilation produces a
matcher accepting exactly the namespaces that match the token under
anchored glob-with-full-wildcard semantics, and a leading `-` makes the
rule a deny rule over the remainder.  (Unescaped regex metacharacters
other than `*` in a token are interpreted as regex syntax, not literally;
see the counterexample.) -/
theorem c3_amended_glob_matcher (c : Char) (rest : List Char)
    (hok : tokOk (c :: rest) = true) :
    (c = '-' →
      compileTokens [replaceStar (c :: rest)] =
          some ([], [⟨replaceStar rest, tokenElems rest⟩]) ∧
        ∀ s, rmatchB (tokenElems rest) s = true ↔ GlobMatches rest s) ∧
    (c ≠ '-' →
      compileTokens [replaceStar (c :: rest)] =
          some ([⟨replaceStar (c :: rest), tokenElems (c :: rest)⟩], []) ∧
        ∀ s, rmatchB (tokenElems (c :: rest)) s = true ↔ GlobMatches (c :: rest) s) := by
  have hokr : tokOk rest = true := by
    rw [tokOk, List.all_cons, Bool.and_eq_true] at hok
    exact hok.2
  constructor
  · intro hdash
    subst hdash
    refine ⟨?_, ?_⟩
    · have hrs : replaceStar ('-' :: rest) = '-' :: replaceStar rest := by
        rw [replaceStar, if_neg (by decide)]
      rw [hrs, compileTokens_cons_deny, parsePattern_replaceStar hokr]
      rfl
    · intro s
      rw [rmatchB_iff]
      exact tokenElems_glob rest s
  · intro hdash
    refine ⟨?_, ?_⟩
    · obtain ⟨d, tl, hdt, hdne⟩ : ∃ d tl, replaceStar (c :: rest) = d :: tl ∧ d ≠ '-' := by
        by_cases hstar : c = '*'
        · subst hstar
          rw [replaceStar, if_pos rfl]
          exact ⟨'.', _, rfl, by decide⟩
        · rw [replaceStar, if_neg hstar]
          exact ⟨c, _, rfl, hdash⟩
      rw [hdt, compileTokens_cons_allow d tl [] hdne, ← hdt,
        parsePattern_replaceStar hok]
      rfl
    · intro s
      rw [rmatchB_iff]
      exact tokenElems_glob (c :: rest) s

/-- Witness for the amended C3 at the token `"ab*"` and the namespace
`"abx"`. -/
theorem c3_witness :
    rmatchB (tokenElems ('a' :: 'b' :: '*' :: [])) ('a' :: 'b' :: 'x' :: []) = true ↔
      GlobMatches ('a' :: 'b' :: '*' :: []) ('a' :: 'b' :: 'x' :: []) :=
  ((c3_amended_glob_matcher 'a' ('b' :: '*' :: []) (by decide)).2 (by decide)).2
    ('a' :: 'b' :: 'x' :: [])

/-- Counterexample to C4 as stated: for the selector `"a*b"` (interior
wildcard), `enable` then `disable` returns the token `"a.*?b"`, whose
recompilation fails (`new RegExp("^a..*??b$")` throws a `SyntaxError`,
modelled as `none`), so no rule set behaviorally equivalent to the
original — which accepts `"ab"` — is obtained. -/
theorem c4_counterexample :
    (compileSelector "a*b").isSome = true ∧
    enabledB ((compileSelector "a*b").getD ([], [])).1
        ((compileSelector "a*b").getD ([], [])).2 "ab" = true ∧
    compileSelector
        (disableString ((compileSelector "a*b").getD ([], [])).1
          ((compileSelector "a*b").getD ([], [])).2) = none := by
  refine ⟨by decide, by decide, by decide⟩

/-- Claim C4 (amended): for every selector each of whose tokens contains
`*` only as its final character (if at all — all other characters,
including `.`, `?` and the remaining metacharacters, are unrestricted),
a successful `enable(s)` followed by `disable()` returns a selector
string whose compilation yields exactly the prior rule lists (hence a
behaviorally equivalent rule set), and after `disable()` returns both
rule lists are empty.  For a token with a non-final `*` the round trip
fails; see the counterexample. -/
theorem c4_amended_roundtrip {Sink : Type} (g g2 : GlobalState Sink) (s : String)
    (hsf : (tokenize s.data).all starFinalRaw = true)
    (henable : enableG (.str s) g = some g2) :
    compileSelector (disableG g2).1 = compileSelector s ∧
    compileSelector (disableG g2).1 = some (g2.names, g2.skips) ∧
    (disableG g2).2.names = [] ∧ (disableG g2).2.skips = [] := by
  rw [enableG] at henable
  obtain ⟨rs, hrs, hg2⟩ := Option.map_eq_some'.mp henable
  have hsel : EnableArg.toSelector (.str s) = s := rfl
  rw [hsel] at hrs
  obtain ⟨ns, sk⟩ := rs
  subst hg2
  have hprops : ∀ r ∈ tokenize s.data, r ≠ [] ∧ starFinalRaw r = true := by
    intro r hrmem
    refine ⟨(tokenize_tokens_ok s.data r hrmem).1, ?_⟩
    rw [List.all_eq_true] at hsf
    exact hsf r hrmem
  obtain ⟨ha, hd, hrna, hrnd⟩ := compileTokens_filter_split (tokenize s.data) ns sk
    hprops hrs
  have hdstr : (disableG (enableCore (ns, sk) g)).1 = disableString ns sk := rfl
  have hrender : disableString ns sk =
      String.mk (joinComma ((tokenize s.data).filter (fun r => !rawIsDeny r) ++
        (tokenize s.data).filter rawIsDeny)) := by
    rw [disableString, hrna, hrnd]
  have htokenback : tokenize (String.mk (joinComma
      ((tokenize s.data).filter (fun r => !rawIsDeny r) ++
        (tokenize s.data).filter rawIsDeny))).data =
      (tokenize s.data).filter (fun r => !rawIsDeny r) ++
        (tokenize s.data).filter rawIsDeny := by
    apply tokenize_joinComma
    intro r hrmem
    rcases List.mem_append.mp hrmem with hm | hm
    · exact tokenize_tokens_ok s.data r (List.mem_of_mem_filter hm)
    · exact tokenize_tokens_ok s.data r (List.mem_of_mem_filter hm)
  have hrecompile : compileSelector (String.mk (joinComma
      ((tokenize s.data).filter (fun r => !rawIsDeny r) ++
        (tokenize s.data).filter rawIsDeny))) = some (ns, sk) := by
    rw [compileSelector, htokenback, List.map_append, compileTokens_append, ha, hd]
    show some (ns ++ [], [] ++ sk) = some (ns, sk)
    rw [List.append_nil, List.nil_append]
  refine ⟨?_, ?_, rfl, rfl⟩
  · rw [hdstr, hrender, hrecompile, hrs]
  · rw [hdstr, hrender, hrecompile]
    rfl

/-- Witness for the amended C4 on the selector `"app.db*,-x.y"` — dotted
namespaces with a trailing wildcard and a dotted deny token — over the
empty global state. -/
theorem c4_witness :
    compileSelector
        (disableG ((enableG (.str "app.db*,-x.y") (⟨[], [], [], 0⟩ : GlobalState Unit)).getD
          ⟨[], [], [], 0⟩)).1 =
      compileSelector "app.db*,-x.y" ∧
    compileSelector
        (disableG ((enableG (.str "app.db*,-x.y") (⟨[], [], [], 0⟩ : GlobalState Unit)).getD
          ⟨[], [], [], 0⟩)).1 =
      some (((enableG (.str "app.db*,-x.y") (⟨[], [], [], 0⟩ : GlobalState Unit)).getD
          ⟨[], [], [], 0⟩).names,
        ((enableG (.str "app.db*,-x.y") (⟨[], [], [], 0⟩ : GlobalState Unit)).getD
          ⟨[], [], [], 0⟩).skips) ∧
    (disableG ((enableG (.str "app.db*,-x.y") (⟨[], [], [], 0⟩ : GlobalState Unit)).getD
        ⟨[], [], [], 0⟩)).2.names = [] ∧
    (disableG ((enableG (.str "app.db*,-x.y") (⟨[], [], [], 0⟩ : GlobalState Unit)).getD
        ⟨[], [], [], 0⟩)).2.skips = [] :=
  c4_amended_roundtrip (⟨[], [], [], 0⟩ : GlobalState Unit) _ "app.db*,-x.y" (by decide)
    (by decide)

/-- Claim C10: `enable` with any non-string argument (such as `undefined`,
i.e. an absent `DEBUG` environment variable) behaves exactly like
`enable("")`: both rule lists become empty and every registered instance
whose namespace does not end in `*` ends up disabled. -/
theorem c10_nonstring_enable_like_empty {Sink : Type} (v : EnableArg) (g : GlobalState Sink)
    (hv : v.isString = false) :
    enableG v g = enableG (.str "") g ∧
    ∀ g2, enableG v g = some g2 →
      g2.names = [] ∧ g2.skips = [] ∧
      ∀ inst ∈ g2.instances, inst.nspace.data.getLast? ≠ some '*' →
        inst.enabled = false := by
  have hsel : v.toSelector = "" := by
    cases v with
    | str s => simp [EnableArg.isString] at hv
    | undef => rfl
    | num n => rfl
    | bool b => rfl
  constructor
  · rw [enableG, enableG, hsel]
    rfl
  · intro g2 hg2
    rw [enableG, hsel] at hg2
    have hcs : compileSelector "" = some ([], []) := rfl
    rw [hcs, Option.map_some'] at hg2
    have hg2e := Option.some_inj.mp hg2
    subst hg2e
    refine ⟨rfl, rfl, ?_⟩
    intro inst hmem hns
    rw [enableCore] at hmem
    simp only [List.mem_map] at hmem
    obtain ⟨i0, _, rfl⟩ := hmem
    show enabledB [] [] i0.nspace = false
    rw [enabledB, if_neg hns]
    rfl

/-- Witness for C10: enabling with `undefined` over a state holding one
enabled instance `"app"` empties the rule lists and disables it. -/
theorem c10_witness :
    ((((enableG EnableArg.undef
        (⟨[rawRule ('x' :: [])], [], [⟨0, "app", 0, true, none, none⟩], 1⟩ :
          GlobalState Unit)).getD ⟨[], [], [], 0⟩).instances.headD
      ⟨0, "", 0, true, none, none⟩).enabled) = false := by
  have h := (c10_nonstring_enable_like_empty EnableArg.undef
      (⟨[rawRule ('x' :: [])], [], [⟨0, "app", 0, true, none, none⟩], 1⟩ :
        GlobalState Unit) (by decide)).2
      ((enableG EnableArg.undef
        (⟨[rawRule ('x' :: [])], [], [⟨0, "app", 0, true, none, none⟩], 1⟩ :
          GlobalState Unit)).getD ⟨[], [], [], 0⟩) (by decide)
  exact h.2.2 _ (by decide) (by decide)

/-- Claim C5: invoking a disabled instance is a no-op: zero clock reads,
the format pipeline does not run, zero sink calls, no output, and the
instance state (including the last-emission timestamp) is unchanged —
for every renderer, humanizer, clock value and argument list. -/
theorem c5_disabled_invoke_noop {Sink : Type} (fmts : Formatters)
    (render : List Value → String) (msFn : Nat → String) (now : Nat)
    (inst : DebugInstance Sink) (args : List Value) (h : inst.enabled = false) :
    invoke fmts render msFn now inst args = (inst, ⟨0, 0, 0, []⟩) := by
  rw [invoke, if_neg]
  rw [h]
  exact Bool.false_ne_true

/-- Witness for C5: a concrete disabled instance with a stored timestamp
is returned untouched with empty effects. -/
theorem c5_witness :
    invoke [] (fun _ => "R") (fun _ => "1ms") 42
        (⟨0, "x", 0, false, none, some 5⟩ : DebugInstance Unit) [Value.vstr "hi"] =
      ((⟨0, "x", 0, false, none, some 5⟩ : DebugInstance Unit), ⟨0, 0, 0, []⟩) :=
  c5_disabled_invoke_noop [] (fun _ => "R") (fun _ => "1ms") 42
    (⟨0, "x", 0, false, none, some 5⟩ : DebugInstance Unit) [Value.vstr "hi"] (by decide)

theorem setLogById_map_enabled {Sink : Type} (l : List (DebugInstance Sink)) (i : Nat)
    (v : Option Sink) :
    (setLogById l i v).map DebugInstance.enabled = l.map DebugInstance.enabled := by
  rw [setLogById, List.map_map]
  apply List.map_congr_left
  intro x _
  by_cases hx : x.id = i
  · simp [hx]
  · simp [hx]

/-- Claim C6: after every successful `enable`, every registered instance's
`enabled` flag equals the evaluator's verdict on its namespace under the
new rule lists; and recompilation via `enable` is the only operation that
changes the flag of an already-created instance — instance creation,
`extend`, `destroy` and invocation all leave the flags of existing
instances untouched. -/
theorem c6_enable_recomputes_registry (Sink : Type) :
    (∀ (v : EnableArg) (g g2 : GlobalState Sink), enableG v g = some g2 →
      ∀ inst ∈ g2.instances,
        inst.enabled = enabledB g2.names g2.skips inst.nspace) ∧
    (∀ (ns : String) (g : GlobalState Sink) (inst : DebugInstance Sink),
      inst ∈ g.instances → inst ∈ (createDebugG ns g).2.instances) ∧
    (∀ (g : GlobalState Sink) (parent : DebugInstance Sink) (sub delim : String),
      (extendG g parent sub delim).2.instances.map DebugInstance.enabled =
        g.instances.map DebugInstance.enabled ++
          [(extendG g parent sub delim).1.enabled]) ∧
    (∀ (g : GlobalState Sink) (instId : Nat) (inst : DebugInstance Sink),
      inst ∈ (destroyG g instId).2.instances → inst ∈ g.instances) ∧
    (∀ (fmts : Formatters) (render : List Value → String) (msFn : Nat → String)
      (now : Nat) (inst : DebugInstance Sink) (args : List Value),
      (invoke fmts render msFn now inst args).1.enabled = inst.enabled ∧
        (invoke fmts render msFn now inst args).1.nspace = inst.nspace ∧
        (invoke fmts render msFn now inst args).1.log = inst.log) := by
  refine ⟨?_, ?_, ?_, ?_, ?_⟩
  · intro v g g2 henable inst hmem
    rw [enableG] at henable
    obtain ⟨rs, hrs, hg2⟩ := Option.map_eq_some'.mp henable
    subst hg2
    rw [enableCore] at hmem
    simp only [List.mem_map] at hmem
    obtain ⟨i0, _, rfl⟩ := hmem
    rfl
  · intro ns g inst hmem
    rw [createDebugG]
    exact List.mem_append_left _ hmem
  · intro g parent sub delim
    rw [extendG]
    rw [setLogById_map_enabled]
    rw [createDebugG, List.map_append]
    rfl
  · intro g instId inst hmem
    rw [destroyG] at hmem
    cases hidx : (g.instances.findIdx? (fun i => i.id = instId)) with
    | none => rw [hidx] at hmem; exact hmem
    | some k =>
      rw [hidx] at hmem
      exact List.eraseIdx_subset _ _ hmem
  · intro fmts render msFn now inst args
    rw [invoke]
    by_cases h : inst.enabled = true
    · rw [if_pos h]
      exact ⟨rfl, rfl, rfl⟩
    · rw [if_neg h]
      exact ⟨rfl, rfl, rfl⟩

/-- Witness for C6: enabling `"ap*"` over a registry holding one disabled
instance `"app"` leaves that instance's flag equal to the evaluator's
verdict under the new rule lists. -/
theorem c6_witness :
    ((((enableG (.str "ap*") (⟨[], [], [⟨0, "app", 0, false, none, none⟩], 1⟩ :
          GlobalState Unit)).getD ⟨[], [], [], 0⟩).instances.headD
        ⟨0, "", 0, false, none, none⟩).enabled) =
      enabledB
        ((enableG (.str "ap*") (⟨[], [], [⟨0, "app", 0, false, none, none⟩], 1⟩ :
          GlobalState Unit)).getD ⟨[], [], [], 0⟩).names
        ((enableG (.str "ap*") (⟨[], [], [⟨0, "app", 0, false, none, none⟩], 1⟩ :
          GlobalState Unit)).getD ⟨[], [], [], 0⟩).skips
        ((((enableG (.str "ap*") (⟨[], [], [⟨0, "app", 0, false, none, none⟩], 1⟩ :
          GlobalState Unit)).getD ⟨[], [], [], 0⟩).instances.headD
        ⟨0, "", 0, false, none, none⟩).nspace) := by
  have h := (c6_enable_recomputes_registry Unit).1 (.str "ap*")
      (⟨[], [], [⟨0, "app", 0, false, none, none⟩], 1⟩ : GlobalState Unit)
      ((enableG (.str "ap*") (⟨[], [], [⟨0, "app", 0, false, none, none⟩], 1⟩ :
          GlobalState Unit)).getD ⟨[], [], [], 0⟩) (by decide)
  exact h _ (by decide)

/-- Claim C9: `extend(sub, d)` creates and registers a new instance whose
namespace is the parent's namespace, the delimiter and the sub-namespace
concatenated; it inherits the parent's output-function override, while
its enabled flag is computed independently from the new namespace against
the current rule lists; the delimiter defaults to `":"`. -/
theorem c9_extend_namespace_and_log {Sink : Type} (g : GlobalState Sink)
    (parent : DebugInstance Sink) (sub delim : String) :
    (extendG g parent sub delim).1.nspace = parent.nspace ++ delim ++ sub ∧
    (extendG g parent sub delim).1.log = parent.log ∧
    (extendG g parent sub delim).1.enabled =
      enabledB g.names g.skips (parent.nspace ++ delim ++ sub) ∧
    (extendG g parent sub delim).1 ∈ (extendG g parent sub delim).2.instances ∧
    extendGDefault g parent sub = extendG g parent sub ":" := by
  refine ⟨rfl, rfl, rfl, ?_, rfl⟩
  rw [extendG, setLogById, createDebugG]
  simp only [List.map_append]
  apply List.mem_append_right
  simp

theorem scanFmt_noPct_append (fmts : Formatters) : ∀ (pre cs : List Char) (idx : Nat)
    (args : List Value), noPct pre = true →
    scanFmt fmts (pre ++ cs) idx args =
      (pre ++ (scanFmt fmts cs idx args).1, (scanFmt fmts cs idx args).2) := by
  intro pre
  induction pre with
  | nil => intro cs idx args _; simp
  | cons c pre ih =>
    intro cs idx args hp
    rw [noPct, List.all_cons, Bool.and_eq_true] at hp
    obtain ⟨hc, hpre⟩ := hp
    simp only [Bool.not_eq_true', decide_eq_false_iff_not] at hc
    rw [List.cons_append]
    cases hq : pre ++ cs with
    | nil =>
      obtain ⟨hp1, hp2⟩ := List.append_eq_nil.mp hq
      subst hp1
      subst hp2
      simp [scanFmt]
    | cons d tl =>
      have hstep : scanFmt fmts (c :: d :: tl) idx args =
          (c :: (scanFmt fmts (d :: tl) idx args).1,
            (scanFmt fmts (d :: tl) idx args).2) := by
        rw [scanFmt, if_neg hc]
      rw [hstep, ← hq, ih cs idx args hpre]
      rfl

theorem scanFmt_noPct (fmts : Formatters) (l : List Char) (idx : Nat) (args : List Value)
    (h : noPct l = true) :
    scanFmt fmts l idx args = (l, args) := by
  have h2 := scanFmt_noPct_append fmts l [] idx args h
  rw [List.append_nil] at h2
  simpa [scanFmt] using h2

theorem scanFmt_escape (fmts : Formatters) (rest : List Char) (idx : Nat)
    (args : List Value) :
    scanFmt fmts ('%' :: '%' :: rest) idx args =
      ('%' :: '%' :: (scanFmt fmts rest idx args).1, (scanFmt fmts rest idx args).2) := by
  rw [scanFmt, if_pos rfl, if_pos rfl]

theorem scanFmt_directive (fmts : Formatters) (c : Char) (rest : List Char) (idx : Nat)
    (args : List Value) (f : Value → String) (hc : isAsciiLetter c = true)
    (hf : lookupFmt fmts c = some f) :
    scanFmt fmts ('%' :: c :: rest) idx args =
      ((f (args.getD (idx + 1) Value.vundef)).data ++
          (scanFmt fmts rest idx (args.eraseIdx (idx + 1))).1,
        (scanFmt fmts rest idx (args.eraseIdx (idx + 1))).2) := by
  have hcp : c ≠ '%' := by
    intro h
    subst h
    exact absurd hc (by decide)
  rw [scanFmt, if_pos rfl, if_neg hcp, if_pos hc, hf]

theorem scanFmt_unknown (fmts : Formatters) (c : Char) (rest : List Char) (idx : Nat)
    (args : List Value) (hc : isAsciiLetter c = true)
    (hnone : lookupFmt fmts c = none) :
    scanFmt fmts ('%' :: c :: rest) idx args =
      ('%' :: c :: (scanFmt fmts rest (idx + 1) args).1,
        (scanFmt fmts rest (idx + 1) args).2) := by
  have hcp : c ≠ '%' := by
    intro h
    subst h
    exact absurd hc (by decide)
  rw [scanFmt, if_pos rfl, if_neg hcp, if_pos hc, hnone]

/-- Claim C7: during the format pre-pass, each `%<letter>` directive whose
letter has a registered formatter is expanded by calling the formatter on
the corresponding positional argument, splicing its return value into the
template and removing that argument from the argument list so it is not
rendered again positionally — here shown end-to-end for a template with
two registered directives in `%`-free surrounding text. -/
theorem c7_registered_directive_substitution (fmts : Formatters) (c d : Char)
    (f1 f2 : Value → String) (hc : isAsciiLetter c = true) (hd : isAsciiLetter d = true)
    (hfc : lookupFmt fmts c = some f1) (hfd : lookupFmt fmts d = some f2)
    (pre mid post : List Char) (hpre : noPct pre = true) (hmid : noPct mid = true)
    (hpost : noPct post = true) (a b : Value) (tail : List Value) :
    applyFormatters fmts
        (Value.vstr (String.mk (pre ++ '%' :: c :: (mid ++ '%' :: d :: post))) ::
          a :: b :: tail) =
      Value.vstr (String.mk (pre ++ (f1 a).data ++ mid ++ (f2 b).data ++ post)) ::
        tail := by
  rw [applyFormatters]
  simp only [headVal, coerce, setHead, isStrV, if_pos]
  rw [show strOf (Value.vstr (String.mk (pre ++ '%' :: c :: (mid ++ '%' :: d :: post)))) =
    String.mk (pre ++ '%' :: c :: (mid ++ '%' :: d :: post)) from rfl]
  rw [show (String.mk (pre ++ '%' :: c :: (mid ++ '%' :: d :: post))).data =
    pre ++ '%' :: c :: (mid ++ '%' :: d :: post) from rfl]
  rw [scanFmt_noPct_append fmts pre _ 0 _ hpre]
  rw [scanFmt_directive fmts c _ 0 _ f1 hc hfc]
  rw [show (Value.vstr (String.mk (pre ++ '%' :: c :: (mid ++ '%' :: d :: post))) ::
      a :: b :: tail).getD 1 Value.vundef = a from rfl]
  rw [show (Value.vstr (String.mk (pre ++ '%' :: c :: (mid ++ '%' :: d :: post))) ::
      a :: b :: tail).eraseIdx 1 =
    Value.vstr (String.mk (pre ++ '%' :: c :: (mid ++ '%' :: d :: post))) ::
      b :: tail from rfl]
  rw [scanFmt_noPct_append fmts mid _ 0 _ hmid]
  rw [scanFmt_directive fmts d _ 0 _ f2 hd hfd]
  rw [show (Value.vstr (String.mk (pre ++ '%' :: c :: (mid ++ '%' :: d :: post))) ::
      b :: tail).getD 1 Value.vundef = b from rfl]
  rw [show (Value.vstr (String.mk (pre ++ '%' :: c :: (mid ++ '%' :: d :: post))) ::
      b :: tail).eraseIdx 1 =
    Value.vstr (String.mk (pre ++ '%' :: c :: (mid ++ '%' :: d :: post))) ::
      tail from rfl]
  rw [scanFmt_noPct fmts post 0 _ hpost]
  simp [setHead, List.append_assoc]

/-- Claim C8: a literal `%%` is emitted unchanged without consuming a
positional argument, and a `%<letter>` with no registered formatter stays
literally in the template with its argument not consumed; the pre-pass is
a total function (never an exception), here shown end-to-end: the
argument list passes through entirely unchanged. -/
theorem c8_escape_and_unknown_passthrough (fmts : Formatters) (q : Char)
    (hq : isAsciiLetter q = true) (hnone : lookupFmt fmts q = none)
    (pre mid post : List Char) (hpre : noPct pre = true) (hmid : noPct mid = true)
    (hpost : noPct post = true) (tail : List Value) :
    applyFormatters fmts
        (Value.vstr (String.mk (pre ++ '%' :: '%' :: (mid ++ '%' :: q :: post))) :: tail) =
      Value.vstr (String.mk (pre ++ '%' :: '%' :: (mid ++ '%' :: q :: post))) :: tail := by
  rw [applyFormatters]
  simp only [headVal, coerce, setHead, isStrV, if_pos]
  rw [show strOf (Value.vstr (String.mk (pre ++ '%' :: '%' :: (mid ++ '%' :: q :: post)))) =
    String.mk (pre ++ '%' :: '%' :: (mid ++ '%' :: q :: post)) from rfl]
  rw [show (String.mk (pre ++ '%' :: '%' :: (mid ++ '%' :: q :: post))).data =
    pre ++ '%' :: '%' :: (mid ++ '%' :: q :: post) from rfl]
  rw [scanFmt_noPct_append fmts pre _ 0 _ hpre]
  rw [scanFmt_escape]
  rw [scanFmt_noPct_append fmts mid _ 0 _ hmid]
  rw [scanFmt_unknown fmts q _ 0 _ hq hnone]
  rw [scanFmt_noPct fmts post 1 _ hpost]

/-- Witness for C7: the spec's template example with registered `s` and
`d` directives; both arguments are consumed and inlined. -/
theorem c7_witness :
    applyFormatters [('s', fun _ => "S"), ('d', fun _ => "D")]
        (Value.vstr (String.mk ("hello ".data ++ '%' :: 's' ::
            (", you have ".data ++ '%' :: 'd' :: " items".data))) ::
          Value.vstr "Al" :: Value.vnum 3 :: []) =
      Value.vstr (String.mk ("hello ".data ++ "S".data ++ ", you have ".data ++
          "D".data ++ " items".data)) :: [] :=
  c7_registered_directive_substitution [('s', fun _ => "S"), ('d', fun _ => "D")]
    's' 'd' (fun _ => "S") (fun _ => "D") (by decide) (by decide) rfl rfl
    "hello ".data ", you have ".data " items".data (by decide) (by decide) (by decide)
    (Value.vstr "Al") (Value.vnum 3) []

/-- Witness for C8: with no registered formatters at all, the template
with `%%` and `%q` and its argument pass through unchanged. -/
theorem c8_witness :
    applyFormatters []
        (Value.vstr (String.mk ("a".data ++ '%' :: '%' :: ("b".data ++ '%' :: 'q' ::
            "c".data))) :: Value.vnum 7 :: []) =
      Value.vstr (String.mk ("a".data ++ '%' :: '%' :: ("b".data ++ '%' :: 'q' ::
          "c".data))) :: Value.vnum 7 :: [] :=
  c8_escape_and_unknown_passthrough [] 'q' (by decide) rfl
    "a".data "b".data "c".data (by decide) (by decide) (by decide) (Value.vnum 7 :: [])

end DenoDebug

